import Mathlib

/-!
Shallow embedding of `src/main.rs` of the `es-delete-old-indices` repository:
the threshold parser (`parse_months`), the date-pattern matcher
(`build_date_regex` + capture extraction), the age engine
(`months_between`, `age_months_from_parts`) and the selection/ordering
pipeline of `main`.  Strings are modelled as `List Char`; chrono's
`NaiveDate` is modelled as a year/month/day record together with the
standard proleptic-Gregorian calendar arithmetic that chrono implements.
Character classes `\d` and `\s` of the regexes are modelled over their
ASCII range (the inputs the program's tests and spec exercise are ASCII).
-/

namespace EsRetention

/-- The `DatePattern` enum of `main.rs` (`Month` | `Week`). -/
inductive DatePattern where
  | month
  | week
deriving DecidableEq, Repr

/-- Model of `chrono::NaiveDate`: a year/month/day triple.  Validity (what
`from_ymd_opt` checks) is captured separately by `from_ymd_opt`. -/
structure Date where
  year : Int
  month : Int
  day : Int
deriving DecidableEq, Repr

/-- Gregorian leap-year test, as chrono computes it. -/
def isLeap (y : Int) : Bool :=
  (y % 4 == 0 && y % 100 != 0) || y % 400 == 0

/-- Number of days of month `m` of year `y` (for `m ∈ [1,12]`). -/
def daysInMonth (y m : Int) : Int :=
  if m = 2 then (if isLeap y then 29 else 28)
  else if m = 4 ∨ m = 6 ∨ m = 9 ∨ m = 11 then 30
  else 31

/-- chrono's minimal representable year (`i32::MIN >> 13`). -/
def MIN_YEAR : Int := -262144

/-- chrono's maximal representable year (`i32::MAX >> 13`). -/
def MAX_YEAR : Int := 262143

/-- Model of `NaiveDate::from_ymd_opt`. -/
def from_ymd_opt (y m d : Int) : Option Date :=
  if MIN_YEAR ≤ y ∧ y ≤ MAX_YEAR ∧ 1 ≤ m ∧ m ≤ 12 ∧ 1 ≤ d ∧ d ≤ daysInMonth y m
  then some ⟨y, m, d⟩ else none

/-- Days since 1970-01-01 of the civil date `(y, m, d)` (the standard
days-from-civil computation of the proleptic Gregorian calendar). -/
def days_from_civil (y m d : Int) : Int :=
  let y' := y - (if m ≤ 2 then 1 else 0)
  let era := Int.ediv y' 400
  let yoe := y' - era * 400
  let mp := Int.emod (m + 9) 12
  let doy := Int.ediv (153 * mp + 2) 5 + d - 1
  let doe := yoe * 365 + Int.ediv yoe 4 - Int.ediv yoe 100 + doy
  era * 146097 + doe - 719468

/-- Civil date `(y, m, d)` of the day `z` days after 1970-01-01 (the
standard civil-from-days computation). -/
def civil_from_days (z : Int) : Int × Int × Int :=
  let z' := z + 719468
  let era := Int.ediv z' 146097
  let doe := z' - era * 146097
  let yoe := Int.ediv (doe - Int.ediv doe 1460 + Int.ediv doe 36524 - Int.ediv doe 146096) 365
  let y := yoe + era * 400
  let doy := doe - (365 * yoe + Int.ediv yoe 4 - Int.ediv yoe 100)
  let mp := Int.ediv (5 * doy + 2) 153
  let d := doy - Int.ediv (153 * mp + 2) 5 + 1
  let m := mp + (if mp < 10 then 3 else -9)
  (y + (if m ≤ 2 then 1 else 0), m, d)

/-- Weekday of day number `z`, numbered `0 = Monday … 6 = Sunday`
(day 0, 1970-01-01, is a Thursday, index 3). -/
def weekdayNum (z : Int) : Int := Int.emod (z + 3) 7

/-- Number of ISO weeks of ISO year `y`: 53 when Jan 1 falls on a Thursday,
or on a Wednesday of a leap year; 52 otherwise. -/
def iso_weeks_in_year (y : Int) : Int :=
  let jan1wd := weekdayNum (days_from_civil y 1 1)
  if jan1wd = 3 ∨ (isLeap y ∧ jan1wd = 2) then 53 else 52

/-- Model of `NaiveDate::from_isoywd_opt (y, w, Weekday::Mon)`: the Monday
of ISO week `w` of ISO year `y`, i.e. the Monday of the week containing
Jan 4, advanced by `w - 1` weeks; `none` when `w` is not a week of that
ISO year or the result is unrepresentable. -/
def from_isoywd_mon_opt (y w : Int) : Option Date :=
  if 1 ≤ w ∧ w ≤ iso_weeks_in_year y then
    let jan4 := days_from_civil y 1 4
    let monday1 := jan4 - weekdayNum jan4
    let (yy, mm, dd) := civil_from_days (monday1 + 7 * (w - 1))
    if MIN_YEAR ≤ yy ∧ yy ≤ MAX_YEAR then some ⟨yy, mm, dd⟩ else none
  else none

/-- `fn months_between(now: NaiveDate, then: NaiveDate) -> i32`:
`(now.year() - then.year()) * 12 + (now.month() as i32 - then.month() as i32)`. -/
def months_between (now thn : Date) : Int :=
  (now.year - thn.year) * 12 + (now.month - thn.month)

/-- The error cases of `age_months_from_parts` (the `anyhow!` messages
"month out of range", "invalid month", "week out of range",
"invalid ISO week"). -/
inductive AgeError where
  | monthOutOfRange
  | invalidMonth
  | weekOutOfRange
  | invalidIsoWeek
deriving DecidableEq, Repr

/-- `fn age_months_from_parts(date_pattern, year, part, now_first)`: range
check the part, resolve it to a first-of-month anchor date, and return
`months_between now_first then_first`.  The final `from_ymd_opt(then.year(),
then.month(), 1).unwrap()` of the week arm never panics (day 1 of the month
of a valid date is valid), so it is modelled by direct construction. -/
def age_months_from_parts (dp : DatePattern) (year part : Int) (now_first : Date) :
    Except AgeError Int :=
  match dp with
  | .month =>
    if ¬(1 ≤ part ∧ part ≤ 12) then .error .monthOutOfRange
    else
      match from_ymd_opt year part 1 with
      | none => .error .invalidMonth
      | some then_first => .ok (months_between now_first then_first)
  | .week =>
    if ¬(1 ≤ part ∧ part ≤ 53) then .error .weekOutOfRange
    else
      match from_isoywd_mon_opt year part with
      | none => .error .invalidIsoWeek
      | some thn => .ok (months_between now_first ⟨thn.year, thn.month, 1⟩)

/-! ### Threshold parser (`parse_months`) -/

/-- The regex crate's `\s` class, over its ASCII range: space (32),
tab (9), newline (10), carriage return (13), vertical tab (11),
form feed (12). -/
def isWs (c : Char) : Bool :=
  c.toNat = 32 || c.toNat = 9 || c.toNat = 10 || c.toNat = 13 ||
    c.toNat = 11 || c.toNat = 12

/-- Case-insensitive comparison of a subject character with a (lowercase)
pattern letter, as the `(?i)` flag performs it on ASCII letters. -/
def lowerEq (c d : Char) : Bool := c.toLower = d

/-- Numeric value of a decimal digit character. -/
def digitVal (c : Char) : Nat := c.toNat - 48

/-- Numeric value of a string of decimal digits (most significant first). -/
def digitsVal (ds : List Char) : Nat := ds.foldl (fun a c => 10 * a + digitVal c) 0

/-- What may follow the mandatory `m` in the months regex:
`(?:onths?)?\s*$`, matched case-insensitively. -/
def afterM (r : List Char) : Bool :=
  match r with
  | o :: n :: t :: h :: rest =>
    if lowerEq o 'o' && lowerEq n 'n' && lowerEq t 't' && lowerEq h 'h' then
      match rest with
      | s :: rest' => if lowerEq s 's' then rest'.all isWs else rest.all isWs
      | [] => true
    else r.all isWs
  | _ => r.all isWs

/-- Matching of the anchored regex `(?i)^\s*(\d+)\s*m(?:onths?)?\s*$` of
`parse_months`, returning the numeric value of the digit capture.  The
classes `\s` and `\d` and the letter `m` are pairwise disjoint, so the
greedy repetitions consume exactly the maximal runs. -/
def parse_months_match (s : List Char) : Option Nat :=
  let t1 := s.dropWhile isWs
  let ds := t1.takeWhile Char.isDigit
  let t2 := t1.dropWhile Char.isDigit
  if ds.isEmpty then none
  else
    let t3 := t2.dropWhile isWs
    match t3 with
    | m :: r => if lowerEq m 'm' && afterM r then some (digitsVal ds) else none
    | [] => none

/-- The failure cases of `parse_months`: the regex not matching
("Invalid months value"), `caps[1].parse::<i32>()` failing (overflow of
`i32`), and the "Months must be non-negative" rejection. -/
inductive ParseError where
  | malformed
  | intParse
  | negative
deriving DecidableEq, Repr

/-- `i32::MAX`. -/
def I32_MAX : Int := 2147483647

/-- `fn parse_months(s: &str) -> Result<i32>`: match the duration regex,
parse the digit capture as an `i32` (the capture has no sign, so the parse
fails exactly on overflow), then reject negative values. -/
def parse_months (s : List Char) : Except ParseError Int :=
  match parse_months_match s with
  | none => .error .malformed
  | some n =>
    if (n : Int) > I32_MAX then .error .intParse
    else if (n : Int) < 0 then .error .negative
    else .ok n

/-! ### Date-pattern matcher (`build_date_regex` + capture extraction) -/

/-- Matching of the month regex `^<escaped pre>(\d{4})[\.-](\d{2})$`
against a name, returning the numeric year and month captures.
`regex::escape` makes the prefix a literal, so the anchored prefix part
of the pattern matches exactly a literal prefix of the name. -/
def month_match (pre : List Char) (name : List Char) : Option (Nat × Nat) :=
  if pre.isPrefixOf name then
    match name.drop pre.length with
    | [y1, y2, y3, y4, sep, m1, m2] =>
      if (y1.isDigit && y2.isDigit && y3.isDigit && y4.isDigit)
          && (sep = '-' || sep = '.') && m1.isDigit && m2.isDigit
      then some (digitsVal [y1, y2, y3, y4], digitsVal [m1, m2])
      else none
    | _ => none
  else none

/-- Matching of the week regex `^<escaped pre>(\d{4})-(\d{1,2})$`
against a name, returning the numeric year and week captures. -/
def week_match (pre : List Char) (name : List Char) : Option (Nat × Nat) :=
  if pre.isPrefixOf name then
    match name.drop pre.length with
    | [y1, y2, y3, y4, sep, w1] =>
      if (y1.isDigit && y2.isDigit && y3.isDigit && y4.isDigit)
          && sep = '-' && w1.isDigit
      then some (digitsVal [y1, y2, y3, y4], digitsVal [w1])
      else none
    | [y1, y2, y3, y4, sep, w1, w2] =>
      if (y1.isDigit && y2.isDigit && y3.isDigit && y4.isDigit)
          && sep = '-' && w1.isDigit && w2.isDigit
      then some (digitsVal [y1, y2, y3, y4], digitsVal [w1, w2])
      else none
    | _ => none
  else none

/-- `build_date_regex` dispatches on the pattern; `re.captures` then yields
the two digit groups. -/
def date_match (dp : DatePattern) (pre name : List Char) : Option (Nat × Nat) :=
  match dp with
  | .month => month_match pre name
  | .week => week_match pre name

/-! ### Selection pipeline of `main` -/

/-- The key of the pre-sort of the fetched names (`items.sort_by`):
normalize `.` to `-`, then strip the prefix when present. -/
def normKey (pre name : List Char) : List Char :=
  let n := name.map (fun c => if c = '.' then '-' else c)
  if pre.isPrefixOf n then n.drop pre.length else n

/-- Lexicographic `≤` on char lists; UTF-8 byte order coincides with code
point order, so this is `str::cmp`'s order. -/
def lexLe : List Char → List Char → Bool
  | [], _ => true
  | _ :: _, [] => false
  | a :: as, b :: bs => if a < b then true else if b < a then false else lexLe as bs

/-- The pre-sort of the fetched index names (`items.sort_by` on the
normalized, prefix-stripped key; Rust's `sort_by` is a stable merge sort). -/
def presort (pre : List Char) (items : List (List Char)) : List (List Char) :=
  items.mergeSort (fun a b => lexLe (normKey pre a) (normKey pre b))

/-- The per-name processing of the `for it in items` loop: match the regex
and compute the age, `none` on a non-match or a skipped error.  The year
capture has 4 digits (≤ 9999 < `i32::MAX`) and the part capture at most 2
(≤ 99 < `u32::MAX`), so the loop's "bad year" / "bad date part" parse-error
arms are unreachable and need no model. -/
def candidate_age (dp : DatePattern) (pre : List Char) (nf : Date)
    (name : List Char) : Option Int :=
  match date_match dp pre name with
  | none => none
  | some (y, p) =>
    match age_months_from_parts dp (y : Int) (p : Int) nf with
    | .ok a => some a
    | .error _ => none

/-- The decision of one loop iteration on the computed age: push
`(name, age)` when `age_months >= months_cutoff`, skip otherwise (and on
a failed match or skipped error). -/
def select_step (cutoff : Int) (name : List Char) : Option Int → Option (List Char × Int)
  | some a => if cutoff ≤ a then some (name, a) else none
  | none => none

/-- The accumulation of `targets`: every processed name whose age passes
`age_months >= months_cutoff`, paired with its age, in traversal order. -/
def select_targets (dp : DatePattern) (pre : List Char) (cutoff : Int)
    (nf : Date) (items : List (List Char)) : List (List Char × Int) :=
  items.filterMap (fun name => select_step cutoff name (candidate_age dp pre nf name))

/-- The full plan construction of `main`: pre-sort the fetched names,
filter by the cutoff, then `targets.sort_by(|a, b| a.1.cmp(&b.1))` —
ascending by age (stable merge sort, as Rust's `sort_by`). -/
def deletion_plan (dp : DatePattern) (pre : List Char) (cutoff : Int)
    (nf : Date) (items : List (List Char)) : List (List Char × Int) :=
  (select_targets dp pre cutoff nf (presort pre items)).mergeSort
    (fun a b => decide (a.2 ≤ b.2))

/-! ### Spec-side shape predicates

These follow the spec's words, to be compared with the matcher functions
above (which follow the source's regexes). -/

/-- Spec wording of the month-convention shape: the prefix, 4 digits, a
separator that is `-` or `.`, then 2 digits, with nothing before or
after. -/
def MonthShape (pre name : List Char) : Prop :=
  ∃ y1 y2 y3 y4 sep m1 m2 : Char,
    name = pre ++ [y1, y2, y3, y4, sep, m1, m2] ∧
    y1.isDigit ∧ y2.isDigit ∧ y3.isDigit ∧ y4.isDigit ∧
    (sep = '-' ∨ sep = '.') ∧ m1.isDigit ∧ m2.isDigit

/-- Spec wording of the week-convention shape: the prefix, 4 digits, `-`,
then 1 or 2 digits, with nothing before or after. -/
def WeekShape (pre name : List Char) : Prop :=
  ∃ (y1 y2 y3 y4 : Char) (ws : List Char),
    name = pre ++ [y1, y2, y3, y4, '-'] ++ ws ∧
    y1.isDigit ∧ y2.isDigit ∧ y3.isDigit ∧ y4.isDigit ∧
    1 ≤ ws.length ∧ ws.length ≤ 2 ∧ ∀ c ∈ ws, c.isDigit

/-- Spec wording of the accepted threshold grammar: optional whitespace,
one or more decimal digits of value `n`, optional whitespace, then `m`
optionally followed by `onth` or `onths` (case-insensitively), and
optional trailing whitespace. -/
def MonthsGrammar (s : List Char) (n : Nat) : Prop :=
  ∃ w1 ds w2 u w3 : List Char,
    s = w1 ++ (ds ++ (w2 ++ (u ++ w3))) ∧
    (∀ c ∈ w1, isWs c) ∧ (∀ c ∈ w2, isWs c) ∧ (∀ c ∈ w3, isWs c) ∧
    ds ≠ [] ∧ (∀ c ∈ ds, c.isDigit) ∧ digitsVal ds = n ∧
    (u.map Char.toLower = ['m'] ∨ u.map Char.toLower = ['m', 'o', 'n', 't', 'h'] ∨
      u.map Char.toLower = ['m', 'o', 'n', 't', 'h', 's'])

/-! ### Character-class facts -/

theorem isDigit_iff_toNat {c : Char} : c.isDigit = true ↔ 48 ≤ c.toNat ∧ c.toNat ≤ 57 := by
  constructor
  · intro h
    unfold Char.isDigit at h
    simp only [Bool.and_eq_true, decide_eq_true_eq, UInt32.le_def, BitVec.le_def] at h
    exact h
  · intro h
    unfold Char.isDigit
    simp only [Bool.and_eq_true, decide_eq_true_eq, UInt32.le_def, BitVec.le_def]
    exact h

theorem isWs_iff_toNat {c : Char} :
    isWs c = true ↔ (c.toNat = 32 ∨ c.toNat = 9 ∨ c.toNat = 10 ∨ c.toNat = 13 ∨
      c.toNat = 11 ∨ c.toNat = 12) := by
  simp [isWs]
  tauto

theorem toLower_of_isDigit {c : Char} (h : c.isDigit = true) : c.toLower = c := by
  have h' := isDigit_iff_toNat.mp h
  unfold Char.toLower
  rw [if_neg]
  intro hc
  omega

theorem toLower_of_isWs {c : Char} (h : isWs c = true) : c.toLower = c := by
  have h' := isWs_iff_toNat.mp h
  unfold Char.toLower
  rw [if_neg]
  intro hc
  omega

theorem not_isWs_of_isDigit {c : Char} (h : c.isDigit = true) : isWs c = false := by
  have h' := isDigit_iff_toNat.mp h
  simp only [isWs, Bool.or_eq_false_iff, decide_eq_false_iff_not]
  omega

theorem not_isDigit_of_isWs {c : Char} (h : isWs c = true) : c.isDigit = false := by
  have h' := isWs_iff_toNat.mp h
  cases hd : c.isDigit
  · rfl
  · have := isDigit_iff_toNat.mp hd
    omega

theorem not_isWs_of_toLower {c d : Char} (hd : isWs d = false) (h : c.toLower = d) :
    isWs c = false := by
  cases hw : isWs c
  · rfl
  · rw [toLower_of_isWs hw] at h
    rw [h, hd] at hw
    cases hw

theorem not_isDigit_of_toLower {c d : Char} (hd : d.isDigit = false) (h : c.toLower = d) :
    c.isDigit = false := by
  cases hw : c.isDigit
  · rfl
  · rw [toLower_of_isDigit hw] at h
    rw [h, hd] at hw
    cases hw

/-! ### Evaluation helpers for the age engine -/

theorem one_le_daysInMonth (y m : Int) : 1 ≤ daysInMonth y m := by
  unfold daysInMonth
  split
  · split <;> norm_num
  · split <;> norm_num

/-- Closed form of the month arm of `age_months_from_parts`. -/
theorem age_month_eq (y p : Int) (nf : Date) :
    age_months_from_parts .month y p nf =
      if 1 ≤ p ∧ p ≤ 12 then
        (if MIN_YEAR ≤ y ∧ y ≤ MAX_YEAR then
          .ok ((nf.year - y) * 12 + (nf.month - p))
        else .error .invalidMonth)
      else .error .monthOutOfRange := by
  unfold age_months_from_parts from_ymd_opt
  by_cases hp : 1 ≤ p ∧ p ≤ 12
  · rw [if_neg (not_not_intro hp), if_pos hp]
    by_cases hy : MIN_YEAR ≤ y ∧ y ≤ MAX_YEAR
    · rw [if_pos ⟨hy.1, hy.2, hp.1, hp.2, by norm_num, one_le_daysInMonth y p⟩, if_pos hy]
      rfl
    · rw [if_neg (fun h => hy ⟨h.1, h.2.1⟩), if_neg hy]
  · rw [if_pos hp, if_neg hp]

/-- Closed form of the week arm of `age_months_from_parts`. -/
theorem age_week_eq (y p : Int) (nf : Date) :
    age_months_from_parts .week y p nf =
      if 1 ≤ p ∧ p ≤ 53 then
        (match from_isoywd_mon_opt y p with
          | none => .error .invalidIsoWeek
          | some thn => .ok (months_between nf ⟨thn.year, thn.month, 1⟩))
      else .error .weekOutOfRange := by
  unfold age_months_from_parts
  by_cases hp : 1 ≤ p ∧ p ≤ 53
  · rw [if_neg (not_not_intro hp), if_pos hp]
  · rw [if_pos hp, if_neg hp]

/-- `age_months_from_parts` in the month convention succeeds exactly on an
in-range month and a representable year, and then computes the month
difference of the first-of-month anchors. -/
theorem age_month_ok_iff {y p : Int} {nf : Date} {a : Int} :
    age_months_from_parts .month y p nf = .ok a ↔
      (1 ≤ p ∧ p ≤ 12) ∧ (MIN_YEAR ≤ y ∧ y ≤ MAX_YEAR) ∧
        a = (nf.year - y) * 12 + (nf.month - p) := by
  rw [age_month_eq]
  by_cases hp : 1 ≤ p ∧ p ≤ 12
  · rw [if_pos hp]
    by_cases hy : MIN_YEAR ≤ y ∧ y ≤ MAX_YEAR
    · rw [if_pos hy]
      simp [hp, hy, eq_comm]
    · rw [if_neg hy]
      simp [hy]
  · rw [if_neg hp]
    simp [hp]

/-! ### The claims -/

/-- C4: for every reference date and candidate anchor date, the age equals
`(referenceYear - thenYear) * 12 + (referenceMonth - thenMonth)`, a signed
count of whole months that may be negative for future-dated candidates. -/
theorem months_between_formula :
    (∀ now thn : Date, months_between now thn =
      (now.year - thn.year) * 12 + (now.month - thn.month))
    ∧ months_between ⟨2025, 3, 1⟩ ⟨2025, 5, 1⟩ = -2 :=
  ⟨fun _ _ => rfl, by decide⟩

/-- C2: the produced deletion plan is ordered ascending by `ageMonths`. -/
theorem deletion_plan_sorted_by_age (dp : DatePattern) (pre : List Char)
    (cutoff : Int) (nf : Date) (items : List (List Char)) :
    List.Sorted (fun a b : List Char × Int => a.2 ≤ b.2)
      (deletion_plan dp pre cutoff nf items) := by
  have h := @List.sorted_mergeSort (List Char × Int)
    (fun a b => decide (a.2 ≤ b.2))
    (fun a b c hab hbc => by
      simp only [decide_eq_true_eq] at *
      omega)
    (fun a b => by
      simp only [Bool.or_eq_true, decide_eq_true_eq]
      omega)
    (select_targets dp pre cutoff nf (presort pre items))
  unfold deletion_plan
  unfold List.Sorted
  exact h.imp (fun hab => by simpa using hab)

/-- C10: the multiset of (name, age) pairs of the deletion plan does not
depend on the order in which the index names were supplied. -/
theorem deletion_plan_perm_invariant (dp : DatePattern) (pre : List Char)
    (cutoff : Int) (nf : Date) (items1 items2 : List (List Char))
    (hp : items1.Perm items2) :
    (deletion_plan dp pre cutoff nf items1).Perm
      (deletion_plan dp pre cutoff nf items2) := by
  unfold deletion_plan select_targets presort
  refine ((List.mergeSort_perm _ _).trans ?_).trans (List.mergeSort_perm _ _).symm
  exact List.Perm.filterMap _
    (((List.mergeSort_perm _ _).trans hp).trans (List.mergeSort_perm _ _).symm)

theorem deletion_plan_perm_invariant_witness :
    (deletion_plan .month ['p', '-'] 12 ⟨2025, 3, 1⟩
        [['p','-','2','0','2','3','-','0','1'], ['p','-','2','0','2','4','-','0','6']]).Perm
      (deletion_plan .month ['p', '-'] 12 ⟨2025, 3, 1⟩
        [['p','-','2','0','2','4','-','0','6'], ['p','-','2','0','2','3','-','0','1']]) :=
  deletion_plan_perm_invariant _ _ _ _ _ _ (by decide)

/-- C1: a candidate with a successfully computed age appears in the
deletion plan if and only if its age is at least the threshold. -/
theorem deletion_plan_mem_iff (dp : DatePattern) (pre : List Char) (cutoff : Int)
    (nf : Date) (items : List (List Char)) (name : List Char) (a : Int)
    (hmem : name ∈ items) (hage : candidate_age dp pre nf name = some a) :
    (name, a) ∈ deletion_plan dp pre cutoff nf items ↔ cutoff ≤ a := by
  unfold deletion_plan select_targets
  rw [List.mem_mergeSort, List.mem_filterMap]
  constructor
  · rintro ⟨x, -, hfx⟩
    rcases hcx : candidate_age dp pre nf x with - | b <;> rw [hcx] at hfx <;>
      simp only [select_step] at hfx
    · exact Option.noConfusion hfx
    · split at hfx
      · have hx := Option.some.inj hfx
        have hba : b = a := congrArg Prod.snd hx
        subst hba
        assumption
      · exact Option.noConfusion hfx
  · intro hc
    refine ⟨name, ?_, ?_⟩
    · unfold presort
      rw [List.mem_mergeSort]
      exact hmem
    · rw [hage]
      simp only [select_step]
      rw [if_pos hc]

theorem deletion_plan_mem_iff_witness :
    ((['p','-','2','0','2','3','-','0','1'], (26 : Int)) ∈
        deletion_plan .month ['p', '-'] 12 ⟨2025, 3, 1⟩
          [['p','-','2','0','2','3','-','0','1']]) ↔ (12 : Int) ≤ 26 :=
  deletion_plan_mem_iff .month ['p', '-'] 12 ⟨2025, 3, 1⟩ _ _ 26
    (by decide) (by decide)

/-- C9: with a fixed reference date and the month convention, the age is
monotonically non-increasing as the candidate `(year, month)` pair moves
forward in time. -/
theorem age_month_monotone (nf : Date) (y1 p1 y2 p2 a1 a2 : Int)
    (h1 : age_months_from_parts .month y1 p1 nf = .ok a1)
    (h2 : age_months_from_parts .month y2 p2 nf = .ok a2)
    (hle : y1 < y2 ∨ (y1 = y2 ∧ p1 ≤ p2)) : a2 ≤ a1 := by
  rw [age_month_ok_iff] at h1 h2
  obtain ⟨⟨hp1a, hp1b⟩, -, ha1⟩ := h1
  obtain ⟨⟨hp2a, hp2b⟩, -, ha2⟩ := h2
  subst ha1 ha2
  rcases hle with h | ⟨rfl, h⟩ <;> omega

theorem age_month_monotone_witness :
    age_months_from_parts .month 2024 6 ⟨2025, 3, 1⟩ = .ok 9 ∧
    age_months_from_parts .month 2025 2 ⟨2025, 3, 1⟩ = .ok 1 ∧
    (1 : Int) ≤ 9 :=
  ⟨by rfl, by rfl,
    age_month_monotone ⟨2025, 3, 1⟩ 2024 6 2025 2 9 1 (by rfl) (by rfl) (by omega)⟩

/-- C3: the week convention resolves the ISO (year, week) pair to the
Monday of that week, truncates that Monday to the first day of its month,
and counts whole months to the reference; for reference 2025-03-01, ISO
week 1 of 2025 (whose Monday is 2024-12-30, weekday index 0 = Monday)
yields age 3. -/
theorem age_week_resolution :
    (∀ (y w : Int) (nf d : Date), 1 ≤ w → w ≤ 53 →
        from_isoywd_mon_opt y w = some d →
        age_months_from_parts .week y w nf =
          .ok (months_between nf ⟨d.year, d.month, 1⟩))
    ∧ from_isoywd_mon_opt 2025 1 = some ⟨2024, 12, 30⟩
    ∧ weekdayNum (days_from_civil 2024 12 30) = 0
    ∧ age_months_from_parts .week 2025 1 ⟨2025, 3, 1⟩ = .ok 3 := by
  refine ⟨?_, by decide, by decide, by rfl⟩
  intro y w nf d h1 h2 hiso
  rw [age_week_eq, if_pos ⟨h1, h2⟩, hiso]

theorem age_week_resolution_witness :
    age_months_from_parts .week 2025 1 ⟨2025, 3, 1⟩ =
      .ok (months_between ⟨2025, 3, 1⟩ ⟨2024, 12, 1⟩) :=
  age_week_resolution.1 2025 1 ⟨2025, 3, 1⟩ ⟨2024, 12, 30⟩ (by omega) (by omega)
    age_week_resolution.2.1

/-- C6 counterexample: week part 53 is inside [1,53] and year 2025 is
representable, yet the call fails — 2025 has only 52 ISO weeks, so the
invalid-ISO-week error (not a range error) is returned. -/
theorem age_week53_in_range_fails :
    age_months_from_parts .week 2025 53 ⟨2025, 3, 1⟩ = .error .invalidIsoWeek ∧
    iso_weeks_in_year 2025 = 52 := ⟨by rfl, by decide⟩

/-- C6 (amended): `age_months_from_parts` fails with the month (resp. week)
range error exactly when the month convention's part is outside [1,12]
(resp. the week convention's part is outside [1,53]); an in-range month
part with a representable year always yields an age, while an in-range week
part yields an age exactly when the ISO (year, week) pair resolves to an
existing, representable ISO week (week 53 of a 52-week ISO year does not). -/
theorem age_range_error_characterization (dp : DatePattern) (y p : Int) (nf : Date) :
    (age_months_from_parts dp y p nf = .error .monthOutOfRange ↔
        dp = .month ∧ ¬(1 ≤ p ∧ p ≤ 12))
    ∧ (age_months_from_parts dp y p nf = .error .weekOutOfRange ↔
        dp = .week ∧ ¬(1 ≤ p ∧ p ≤ 53))
    ∧ (dp = .month → 1 ≤ p → p ≤ 12 → MIN_YEAR ≤ y → y ≤ MAX_YEAR →
        ∃ a, age_months_from_parts dp y p nf = .ok a)
    ∧ (dp = .week → 1 ≤ p → p ≤ 53 →
        ((∃ a, age_months_from_parts dp y p nf = .ok a) ↔
          (from_isoywd_mon_opt y p).isSome)) := by
  cases dp
  case month =>
    rw [age_month_eq]
    by_cases hp : 1 ≤ p ∧ p ≤ 12
    · by_cases hy : MIN_YEAR ≤ y ∧ y ≤ MAX_YEAR
      · rw [if_pos hp, if_pos hy]
        exact ⟨by simp [hp], by simp, fun _ _ _ _ _ => ⟨_, rfl⟩, by simp⟩
      · rw [if_pos hp, if_neg hy]
        refine ⟨by simp [hp], by simp, ?_, by simp⟩
        intro _ _ _ hy1 hy2
        exact absurd ⟨hy1, hy2⟩ hy
    · rw [if_neg hp]
      refine ⟨by simp [hp], by simp, ?_, by simp⟩
      intro _ h1 h2 _ _
      exact absurd ⟨h1, h2⟩ hp
  case week =>
    rw [age_week_eq]
    by_cases hp : 1 ≤ p ∧ p ≤ 53
    · rw [if_pos hp]
      rcases hiso : from_isoywd_mon_opt y p with - | d
      · exact ⟨by simp, by simp [hp], by simp, fun _ _ _ => by simp⟩
      · exact ⟨by simp, by simp [hp], by simp, fun _ _ _ => by simp⟩
    · rw [if_neg hp]
      refine ⟨by simp, by simp [hp], by simp, ?_⟩
      intro _ h1 h2
      exact absurd ⟨h1, h2⟩ hp

theorem age_range_error_characterization_witness :
    ∃ a, age_months_from_parts .month 2025 1 ⟨2025, 3, 1⟩ = .ok a :=
  (age_range_error_characterization .month 2025 1 ⟨2025, 3, 1⟩).2.2.1 rfl
    (by omega) (by omega) (by decide) (by decide)

/-- C8 counterexample: the digit sequence 2147483648 matches the accepted
grammar but overflows `i32`; `parse_months` fails with the integer-parse
error, which is distinct from the dedicated non-negative (Negative)
error. -/
theorem parse_months_overflow_not_negative :
    parse_months ['2','1','4','7','4','8','3','6','4','8','m'] = .error .intParse ∧
    ParseError.intParse ≠ ParseError.negative := ⟨by rfl, by decide⟩

/-- C8 (amended): a grammar-matching digit sequence that overflows `i32`
makes `parse_months` fail with the propagated integer-parse error, and the
dedicated non-negative (Negative) error is unreachable. -/
theorem parse_months_overflow_behavior :
    (∀ (s : List Char) (n : Nat), parse_months_match s = some n →
        I32_MAX < (n : Int) → parse_months s = .error .intParse)
    ∧ (∀ s : List Char, parse_months s ≠ .error .negative) := by
  constructor
  · intro s n hm ho
    unfold parse_months
    simp only [hm]
    rw [if_pos ho]
  · intro s
    unfold parse_months
    rcases hm : parse_months_match s with - | n <;> simp only [hm]
    · simp
    · by_cases ho : (n : Int) > I32_MAX
      · rw [if_pos ho]
        simp
      · rw [if_neg ho, if_neg (by omega)]
        simp

theorem parse_months_overflow_behavior_witness :
    parse_months ['2','1','4','7','4','8','3','6','4','8','m'] = .error .intParse :=
  parse_months_overflow_behavior.1 _ 2147483648 (by rfl) (by decide)

/-! ### Matcher shape characterization -/

theorem month_match_isSome_iff {pre name : List Char} :
    (month_match pre name).isSome ↔ MonthShape pre name := by
  constructor
  · intro h
    unfold month_match at h
    split at h
    case isTrue hpre =>
      split at h
      case h_1 y1 y2 y3 y4 sep m1 m2 hdrop =>
        split at h
        case isTrue hcond =>
          simp only [Bool.and_eq_true, Bool.or_eq_true, decide_eq_true_eq] at hcond
          obtain ⟨⟨⟨⟨⟨⟨hd1, hd2⟩, hd3⟩, hd4⟩, hsep⟩, hm1⟩, hm2⟩ := hcond
          obtain ⟨t, ht⟩ := List.isPrefixOf_iff_prefix.mp hpre
          have hteq : t = [y1, y2, y3, y4, sep, m1, m2] := by
            rw [← hdrop, ← ht, List.drop_left]
          exact ⟨y1, y2, y3, y4, sep, m1, m2, by rw [← ht, hteq], hd1, hd2, hd3, hd4,
            hsep, hm1, hm2⟩
        case isFalse => simp at h
      case h_2 => simp at h
    case isFalse => simp at h
  · rintro ⟨y1, y2, y3, y4, sep, m1, m2, rfl, hd1, hd2, hd3, hd4, hsep, hm1, hm2⟩
    have hpre : pre.isPrefixOf (pre ++ [y1, y2, y3, y4, sep, m1, m2]) = true :=
      List.isPrefixOf_iff_prefix.mpr (List.prefix_append _ _)
    unfold month_match
    rw [if_pos hpre, List.drop_left]
    rcases hsep with rfl | rfl <;> simp [hd1, hd2, hd3, hd4, hm1, hm2]

theorem week_match_isSome_iff {pre name : List Char} :
    (week_match pre name).isSome ↔ WeekShape pre name := by
  constructor
  · intro h
    unfold week_match at h
    split at h
    case isTrue hpre =>
      obtain ⟨t, ht⟩ := List.isPrefixOf_iff_prefix.mp hpre
      split at h
      case h_1 y1 y2 y3 y4 sep w1 hdrop =>
        split at h
        case isTrue hcond =>
          simp only [Bool.and_eq_true, decide_eq_true_eq] at hcond
          obtain ⟨⟨⟨⟨⟨hd1, hd2⟩, hd3⟩, hd4⟩, hsep⟩, hw1⟩ := hcond
          have hteq : t = [y1, y2, y3, y4, sep, w1] := by
            rw [← hdrop, ← ht, List.drop_left]
          subst hsep
          refine ⟨y1, y2, y3, y4, [w1], by rw [← ht, hteq]; simp, hd1, hd2, hd3, hd4,
            by simp, by simp, ?_⟩
          intro c hc
          rw [List.mem_singleton] at hc
          rw [hc]
          exact hw1
        case isFalse => simp at h
      case h_2 y1 y2 y3 y4 sep w1 w2 hdrop =>
        split at h
        case isTrue hcond =>
          simp only [Bool.and_eq_true, decide_eq_true_eq] at hcond
          obtain ⟨⟨⟨⟨⟨⟨hd1, hd2⟩, hd3⟩, hd4⟩, hsep⟩, hw1⟩, hw2⟩ := hcond
          have hteq : t = [y1, y2, y3, y4, sep, w1, w2] := by
            rw [← hdrop, ← ht, List.drop_left]
          subst hsep
          refine ⟨y1, y2, y3, y4, [w1, w2], by rw [← ht, hteq]; simp, hd1, hd2, hd3, hd4,
            by simp, by simp, ?_⟩
          intro c hc
          rcases List.mem_pair.mp hc with rfl | rfl
          · exact hw1
          · exact hw2
        case isFalse => simp at h
      case h_3 => simp at h
    case isFalse => simp at h
  · rintro ⟨y1, y2, y3, y4, ws, rfl, hd1, hd2, hd3, hd4, hlen1, hlen2, hws⟩
    have hpre : pre.isPrefixOf (pre ++ [y1, y2, y3, y4, '-'] ++ ws) = true := by
      rw [List.append_assoc]
      exact List.isPrefixOf_iff_prefix.mpr (List.prefix_append _ _)
    unfold week_match
    rw [if_pos hpre, List.append_assoc, List.drop_left]
    rcases ws with - | ⟨w1, - | ⟨w2, - | rest⟩⟩
    · simp at hlen1
    · simp [hd1, hd2, hd3, hd4, hws w1 (by simp)]
    · simp [hd1, hd2, hd3, hd4, hws w1 (by simp), hws w2 (by simp)]
    · simp at hlen2

/-- C5: with the prefix taken literally, the month matcher recognizes
exactly `<prefix><4 digits><'-' or '.'><2 digits>` and the week matcher
exactly `<prefix><4 digits>-<1 or 2 digits>`, both anchored at both ends;
every other name produces no match. -/
theorem date_regex_shape (pre name : List Char) :
    ((month_match pre name).isSome ↔ MonthShape pre name)
    ∧ ((week_match pre name).isSome ↔ WeekShape pre name) :=
  ⟨month_match_isSome_iff, week_match_isSome_iff⟩

/-! ### Threshold-grammar characterization -/

theorem afterM_of_all_ws {w : List Char} (h : ∀ c ∈ w, isWs c = true) :
    afterM w = true := by
  unfold afterM
  split
  case h_1 o nn t hh rest =>
    split
    case isTrue hcond =>
      exfalso
      simp only [Bool.and_eq_true, lowerEq, decide_eq_true_eq] at hcond
      obtain ⟨⟨⟨ho, -⟩, -⟩, -⟩ := hcond
      have hws := h o (by simp)
      have hlw := toLower_of_isWs hws
      rw [ho] at hlw
      rw [← hlw] at hws
      exact absurd hws (by decide)
    case isFalse =>
      exact List.all_eq_true.mpr (fun c hc => h c hc)
  case h_2 =>
    exact List.all_eq_true.mpr (fun c hc => h c hc)

theorem afterM_onth {c2 c3 c4 c5 : Char} {w3 : List Char}
    (h2 : c2.toLower = 'o') (h3 : c3.toLower = 'n') (h4 : c4.toLower = 't')
    (h5 : c5.toLower = 'h') (hw : ∀ c ∈ w3, isWs c = true) :
    afterM (c2 :: c3 :: c4 :: c5 :: w3) = true := by
  simp only [afterM]
  rw [if_pos (by simp [lowerEq, h2, h3, h4, h5])]
  rcases w3 with - | ⟨s1, rest1⟩
  · rfl
  · show (if lowerEq s1 's' = true then rest1.all isWs else (s1 :: rest1).all isWs) = true
    have hns : s1.toLower ≠ 's' := by
      intro hs
      have hws := hw s1 (by simp)
      have hlw := toLower_of_isWs hws
      rw [hs] at hlw
      rw [← hlw] at hws
      exact absurd hws (by decide)
    rw [if_neg (by simp [lowerEq, hns])]
    exact List.all_eq_true.mpr (fun c hc => hw c hc)

theorem afterM_onths {c2 c3 c4 c5 c6 : Char} {w3 : List Char}
    (h2 : c2.toLower = 'o') (h3 : c3.toLower = 'n') (h4 : c4.toLower = 't')
    (h5 : c5.toLower = 'h') (h6 : c6.toLower = 's') (hw : ∀ c ∈ w3, isWs c = true) :
    afterM (c2 :: c3 :: c4 :: c5 :: c6 :: w3) = true := by
  simp only [afterM]
  rw [if_pos (by simp [lowerEq, h2, h3, h4, h5])]
  show (if lowerEq c6 's' then w3.all isWs else ((c6 :: w3).all isWs)) = true
  rw [if_pos (by simp [lowerEq, h6])]
  exact List.all_eq_true.mpr (fun c hc => hw c hc)

/-- Decomposition of a list accepted by the `(?:onths?)?\s*$` tail of the
months regex. -/
theorem afterM_characterization {r : List Char} (h : afterM r = true) :
    ∃ u' w3, r = u' ++ w3 ∧ (∀ c ∈ w3, isWs c = true) ∧
      (u'.map Char.toLower = [] ∨ u'.map Char.toLower = ['o', 'n', 't', 'h'] ∨
        u'.map Char.toLower = ['o', 'n', 't', 'h', 's']) := by
  unfold afterM at h
  split at h
  case h_1 o nn t hh rest =>
    split at h
    case isTrue hcond =>
      simp only [Bool.and_eq_true, lowerEq, decide_eq_true_eq] at hcond
      obtain ⟨⟨⟨ho, hn⟩, ht⟩, hhh⟩ := hcond
      split at h
      case h_1 s1 rest1 =>
        split at h
        case isTrue hs =>
          simp only [lowerEq, decide_eq_true_eq] at hs
          exact ⟨[o, nn, t, hh, s1], rest1, by simp, List.all_eq_true.mp h,
            by simp [ho, hn, ht, hhh, hs]⟩
        case isFalse =>
          exact ⟨[o, nn, t, hh], s1 :: rest1, by simp, List.all_eq_true.mp h,
            by simp [ho, hn, ht, hhh]⟩
      case h_2 =>
        exact ⟨[o, nn, t, hh], [], by simp, by simp, by simp [ho, hn, ht, hhh]⟩
    case isFalse =>
      exact ⟨[], o :: nn :: t :: hh :: rest, by simp, List.all_eq_true.mp h, by simp⟩
  case h_2 =>
    exact ⟨[], r, by simp, List.all_eq_true.mp h, by simp⟩

/-- Conversely, a unit of the accepted grammar followed by whitespace is
accepted by the parser's tail check. -/
theorem afterM_append_of_unit {u w3 : List Char} (hw3 : ∀ c ∈ w3, isWs c = true)
    (hu : u.map Char.toLower = ['m'] ∨ u.map Char.toLower = ['m', 'o', 'n', 't', 'h'] ∨
      u.map Char.toLower = ['m', 'o', 'n', 't', 'h', 's']) :
    ∃ c1 u', u = c1 :: u' ∧ c1.toLower = 'm' ∧ afterM (u' ++ w3) = true := by
  rcases hu with hu | hu | hu
  · rcases u with - | ⟨c1, - | ⟨c2, u2⟩⟩ <;> simp only [List.map_cons, List.map_nil] at hu
    · exact absurd hu.symm (List.cons_ne_nil 'm' [])
    · simp only [List.cons.injEq, and_true] at hu
      exact ⟨c1, [], rfl, hu, by simpa using afterM_of_all_ws hw3⟩
    · simp at hu
  · rcases u with - | ⟨c1, - | ⟨c2, - | ⟨c3, - | ⟨c4, - | ⟨c5, - | ⟨c6, u2⟩⟩⟩⟩⟩⟩ <;>
      simp at hu
    obtain ⟨h1, h2, h3, h4, h5⟩ := hu
    exact ⟨c1, [c2, c3, c4, c5], rfl, h1, by simpa using afterM_onth h2 h3 h4 h5 hw3⟩
  · rcases u with - | ⟨c1, - | ⟨c2, - | ⟨c3, - | ⟨c4, - | ⟨c5, - | ⟨c6, - | ⟨c7, u2⟩⟩⟩⟩⟩⟩⟩ <;>
      simp at hu
    obtain ⟨h1, h2, h3, h4, h5, h6⟩ := hu
    exact ⟨c1, [c2, c3, c4, c5, c6], rfl, h1,
      by simpa using afterM_onths h2 h3 h4 h5 h6 hw3⟩

theorem dropWhile_isWs_of_digits {ds rest : List Char} (hne : ds ≠ [])
    (hds : ∀ c ∈ ds, c.isDigit = true) :
    (ds ++ rest).dropWhile isWs = ds ++ rest := by
  rcases ds with - | ⟨d, ds1⟩
  · exact absurd rfl hne
  · rw [List.cons_append,
      List.dropWhile_cons_of_neg (by simp [not_isWs_of_isDigit (hds d (by simp))]),
      ← List.cons_append]

theorem takeWhile_isDigit_of_digits {ds rest : List Char}
    (hds : ∀ c ∈ ds, c.isDigit = true)
    (hrest : rest.takeWhile Char.isDigit = []) :
    (ds ++ rest).takeWhile Char.isDigit = ds := by
  rw [List.takeWhile_append_of_pos hds, hrest, List.append_nil]

theorem dropWhile_isDigit_of_digits {ds rest : List Char}
    (hds : ∀ c ∈ ds, c.isDigit = true)
    (hrest : rest.takeWhile Char.isDigit = []) :
    (ds ++ rest).dropWhile Char.isDigit = rest := by
  rw [List.dropWhile_append_of_pos hds]
  have h2 : rest.takeWhile Char.isDigit ++ rest.dropWhile Char.isDigit = rest :=
    List.takeWhile_append_dropWhile _ rest
  rw [hrest] at h2
  simpa using h2

/-- The parser of the months regex accepts exactly the spec's grammar. -/
theorem parse_months_match_iff {s : List Char} {n : Nat} :
    parse_months_match s = some n ↔ MonthsGrammar s n := by
  constructor
  · intro h
    simp only [parse_months_match] at h
    split at h
    case isTrue => exact Option.noConfusion h
    case isFalse hne =>
      split at h
      case h_1 m r heq =>
        split at h
        case isTrue hcond =>
          simp only [Bool.and_eq_true] at hcond
          obtain ⟨hm, hafter⟩ := hcond
          simp only [lowerEq, decide_eq_true_eq] at hm
          have hval : digitsVal ((s.dropWhile isWs).takeWhile Char.isDigit) = n :=
            Option.some.inj h
          obtain ⟨u', w3, hru, hw3, hvar⟩ := afterM_characterization hafter
          refine ⟨s.takeWhile isWs, (s.dropWhile isWs).takeWhile Char.isDigit,
            ((s.dropWhile isWs).dropWhile Char.isDigit).takeWhile isWs, m :: u', w3,
            ?_, ?_, ?_, hw3, ?_, ?_, hval, ?_⟩
          · rw [List.cons_append, ← hru, ← heq,
              List.takeWhile_append_dropWhile isWs ((s.dropWhile isWs).dropWhile Char.isDigit),
              List.takeWhile_append_dropWhile Char.isDigit (s.dropWhile isWs),
              List.takeWhile_append_dropWhile isWs s]
          · intro c hc
            exact List.all_eq_true.mp List.all_takeWhile c hc
          · intro c hc
            exact List.all_eq_true.mp List.all_takeWhile c hc
          · intro hnil
            exact hne (by rw [hnil]; rfl)
          · intro c hc
            exact List.all_eq_true.mp List.all_takeWhile c hc
          · rcases hvar with hv | hv | hv
            · exact Or.inl (by simp [hm, hv])
            · exact Or.inr (Or.inl (by simp [hm, hv]))
            · exact Or.inr (Or.inr (by simp [hm, hv]))
        case isFalse => exact Option.noConfusion h
      case h_2 => exact Option.noConfusion h
  · rintro ⟨w1, ds, w2, u, w3, rfl, hw1, hw2, hw3, hne, hds, rfl, hu⟩
    obtain ⟨c1, u', rfl, hc1, hau⟩ := afterM_append_of_unit hw3 hu
    have hrest : (w2 ++ ((c1 :: u') ++ w3)).takeWhile Char.isDigit = [] := by
      rcases w2 with - | ⟨cw, w2x⟩
      · simp only [List.nil_append, List.cons_append]
        rw [List.takeWhile_cons_of_neg]
        simp [not_isDigit_of_toLower (by decide) hc1]
      · rw [List.cons_append, List.takeWhile_cons_of_neg]
        simp [not_isDigit_of_isWs (hw2 cw (by simp))]
    simp only [parse_months_match]
    rw [List.dropWhile_append_of_pos hw1,
      dropWhile_isWs_of_digits hne hds,
      takeWhile_isDigit_of_digits hds hrest,
      dropWhile_isDigit_of_digits hds hrest,
      List.dropWhile_append_of_pos hw2,
      List.cons_append,
      List.dropWhile_cons_of_neg (by simp [not_isWs_of_toLower (by decide) hc1]),
      if_neg (by simp [hne])]
    simp [lowerEq, hc1, hau]

/-- C7: `parseThreshold` yields 25, 12, 0 on "25m", " 12 months ", "0m",
rejects "abc" and "-1m", and accepts exactly the case-insensitive grammar
(optional whitespace, decimal digits, optional whitespace, `m` optionally
followed by `onth` or `onths`, optional whitespace). -/
theorem parse_months_grammar :
    (∀ (s : List Char) (n : Nat), parse_months_match s = some n ↔ MonthsGrammar s n)
    ∧ parse_months ['2', '5', 'm'] = .ok 25
    ∧ parse_months [' ', '1', '2', ' ', 'm', 'o', 'n', 't', 'h', 's', ' '] = .ok 12
    ∧ parse_months ['0', 'm'] = .ok 0
    ∧ parse_months ['a', 'b', 'c'] = .error .malformed
    ∧ parse_months ['-', '1', 'm'] = .error .malformed :=
  ⟨fun _ _ => parse_months_match_iff, by rfl, by rfl, by rfl, by rfl, by rfl⟩

end EsRetention
